import Mathlib

/-!
Verification of the dependency-closure relinking engine of
`build_binary.py` (getsentry/prebuilt-pythons).

The development shallowly embeds the core functions of the source:

* `_libc6_links`   ↦ `libc6Links` (pure function of the `dpkg -L libc6` lines)
* `LDD_LINE` regex ↦ `lddParseL` (a direct parser with the regex's semantics)
* `_linux_linked`  ↦ `linuxLinked` (pure function of the `ldd` output lines)
* `OTOOL_L_LINE`   ↦ `otoolMatchL`
* `_darwin_linked` ↦ `darwinLinked` (pure function of the `otool -L` lines,
  parameterised by an `isfile` oracle standing for `os.path.isfile`)
* `_linux_relink` / `_darwin_relink` ↦ `linuxRelinkCmds` / `darwinRelinkCmds`
  (the list of external commands the relinker spawns)
* `_relink_1`      ↦ `relink1` (the recursive closure walk, fuelled).

File-system effects are made explicit: the destination library directory is
an association list of (base name, file content) in the order the files were
created, and the walk also records the list of `plat.relink` invocations it
performs.  External binaries are abstracted by a `LinkEnv`: `deps p` is the
list returned by `plat.linked` for the (unrelinked) file at source path `p`,
and `content p` is the byte content of that file.  Since `_relink_1` copies a
library into the destination directory verbatim before recursing into the
copy, the copy's link table equals the source's, so the recursion is modelled
on source paths.
-/

deriving instance DecidableEq for Except

namespace PrebuiltPythons

/-! ## Python string primitives -/

/-- Whitespace as recognised by Python's `str.strip` / `\s` (ASCII part). -/
def pyIsWS (c : Char) : Bool :=
  c = ' ' || c = '\t' || c = '\n' || c = '\r' || c = '\x0b' || c = '\x0c'

/-- Python `str.strip()` on the character list. -/
def pyStripL (cs : List Char) : List Char :=
  ((cs.dropWhile pyIsWS).reverse.dropWhile pyIsWS).reverse

/-- Python `str.strip()`. -/
def pyStrip (s : String) : String := String.mk (pyStripL s.data)

/-- Does the list start with the given pattern? -/
def startsWithL : List Char → List Char → Bool
  | _, [] => true
  | [], _ :: _ => false
  | c :: cs, p :: ps => c == p && startsWithL cs ps

/-- Does the (nonempty) pattern occur as a contiguous sublist? -/
def containsL (cs pat : List Char) : Bool :=
  match cs with
  | [] => startsWithL [] pat
  | _ :: t => startsWithL cs pat || containsL t pat

/-- All positions (ascending) at which the pattern occurs. -/
def occPositions (pat : List Char) : List Char → List Nat
  | [] => []
  | c :: cs =>
    (if startsWithL (c :: cs) pat then [0] else []) ++
      (occPositions pat cs).map (· + 1)

/-- Python `os.path.basename`: everything after the last `/` (the whole
string when there is no `/`, empty when the string ends in `/`). -/
def basenameL (cs : List Char) : List Char :=
  cs.foldl (fun acc c => if c = '/' then [] else acc ++ [c]) []

/-- Python `os.path.basename`. -/
def basename (s : String) : String :=
  String.mk (basenameL s.data)

/-- Split a character list at every occurrence of `sep` (like
Python `str.split(sep)` for a one-character separator). -/
def splitOnCharL (sep : Char) : List Char → List (List Char)
  | [] => [[]]
  | c :: cs =>
    let r := splitOnCharL sep cs
    if c = sep then [] :: r
    else
      match r with
      | [] => [[c]]
      | h :: t => (c :: h) :: t

/-- Python `os.path.dirname`: the head of `os.path.split`, i.e. everything
up to the last `/`, with trailing slashes stripped unless the head is all
slashes. -/
def dirnameL (cs : List Char) : List Char :=
  match (occPositions ['/'] cs).getLast? with
  | none => []
  | some i =>
    let head := cs.take (i + 1)
    if head.all (fun c => c == '/') then head
    else (head.reverse.dropWhile (fun c => c == '/')).reverse

/-- Python `os.path.dirname`. -/
def dirname (s : String) : String := String.mk (dirnameL s.data)

/-- Length of the common leading run of two component lists. -/
def commonLen : List (List Char) → List (List Char) → Nat
  | a :: as, b :: bs => if a = b then commonLen as bs + 1 else 0
  | _, _ => 0

/-- Python `os.path.relpath(path, start)` for already-absolute, normalised
paths (the only way `build_binary.py` uses it): split both paths into
components, drop the common leading components, then prepend one `..` per
remaining component of `start`. -/
def relpath (path start : String) : String :=
  let pl := (splitOnCharL '/' path.data).filter (fun x => !x.isEmpty)
  let sl := (splitOnCharL '/' start.data).filter (fun x => !x.isEmpty)
  let i := commonLen pl sl
  let rel := List.replicate (sl.length - i) ("..".data) ++ pl.drop i
  if rel.isEmpty then "." else String.mk (List.intercalate ['/'] rel)

/-- Python `os.path.join(a, b)` for a non-empty `a` without a trailing slash
and a relative `b` (the only way the core uses it). -/
def pathJoin (a b : String) : String := a ++ "/" ++ b

/-! ## `_libc6_links`: the base-system exclusion set

`_libc6_links` runs `dpkg -L libc6` and keeps the lines that start with
`/lib/` and contain `.so`.  The model is a pure function of the output
lines; the Python `frozenset` is modelled as the filtered list (membership
is all the callers use). -/

/-- Model of `_libc6_links` as a function of the `dpkg -L libc6` lines. -/
def libc6Links (lines : List String) : List String :=
  lines.filter (fun l =>
    startsWithL l.data ("/lib/".data) && containsL l.data (".so".data))

/-! ## `LDD_LINE` and `_linux_linked`

`LDD_LINE = re.compile(r'^[^ ]+ => ([^ ]+) \([^(]+\)$')`.

Because `[^ ]+` cannot cross a space and the literals are fixed, the regex
is deterministic: a nonempty spaceless token, then `" => "`, then the
captured nonempty spaceless token, then `" ("`, then one or more
non-`(` characters, then `")"` at the very end. -/

/-- Parser with the exact semantics of `LDD_LINE.match`; returns the
captured group. -/
def lddParseL (cs : List Char) : Option (List Char) :=
  let p1 := cs.span (fun c => c != ' ')
  match p1.1, p1.2 with
  | [], _ => none
  | _ :: _, ' ' :: '=' :: '>' :: ' ' :: r2 =>
    let p2 := r2.span (fun c => c != ' ')
    match p2.1, p2.2 with
    | [], _ => none
    | t2, ' ' :: '(' :: r4 =>
      match r4.reverse with
      | ')' :: restRev =>
        if !restRev.isEmpty && restRev.all (fun c => c != '(') then some t2
        else none
      | _ => none
    | _, _ => none
  | _, _ => none

/-- `LDD_LINE.match` on a string, returning `match[1]`. -/
def lddParseS (s : String) : Option String := (lddParseL s.data).map String.mk

/-- The prefixes of `ldd` lines that `_linux_linked` silently skips
(vdso and the dynamic loader). -/
def lddSkipped (l : String) : Bool :=
  startsWithL l.data ("linux-vdso.so.1 ".data) ||
  startsWithL l.data ("/lib/ld-linux-".data) ||
  startsWithL l.data ("/lib64/ld-linux-".data)

/-- Model of `_linux_linked` as a function of the precomputed ignore set
and the `ldd` output lines.  Mirrors the source loop: strip the line, try
the regex; on no match skip `statically linked` and vdso/loader lines and
raise otherwise; on a match append the captured path unless ignored. -/
def linuxLinked (ignored : List String) : List String → Except String (List String)
  | [] => Except.ok []
  | line :: rest =>
    let l := pyStrip line
    match lddParseS l with
    | some p =>
      match linuxLinked ignored rest with
      | Except.ok r => Except.ok (if p ∈ ignored then r else p :: r)
      | Except.error e => Except.error e
    | none =>
      if l == "statically linked" then linuxLinked ignored rest
      else if lddSkipped l then linuxLinked ignored rest
      else Except.error ("unexpected ldd line:\n\n" ++ l)

/-- A line of `ldd` output that `_linux_linked` does not raise on. -/
def linuxRecognized (line : String) : Bool :=
  (lddParseS (pyStrip line)).isSome ||
  pyStrip line == "statically linked" ||
  lddSkipped (pyStrip line)

/-! ## `OTOOL_L_LINE` and `_darwin_linked`

`OTOOL_L_LINE = re.compile(r'\s+(.+) \(compatibility .*, current .*\)$')`.

`\s+` is greedy, then `(.+)` is greedy, so the capture runs from the end of
the leading whitespace to the last occurrence of `" (compatibility "` whose
tail still matches `.*, current .*\)$` (ends in `)` and contains
`", current "` before the final `)`).  Because the separator starts with a
space, the only occurrence that can begin inside the whitespace run is the
one ending exactly at the run's boundary; backtracking of `\s+` matters only
there (the capture then degenerates to a single whitespace character). -/

def sepCompat : List Char := " (compatibility ".data

def sepCurrent : List Char := ", current ".data

/-- Does the text after `" (compatibility "` match `.*, current .*\)$`? -/
def otoolTailOk (t : List Char) : Bool :=
  match t.reverse with
  | ')' :: restRev => containsL restRev.reverse sepCurrent
  | _ => false

/-- Parser with the semantics of `OTOOL_L_LINE.match`; returns `match[1]`. -/
def otoolMatchL (cs : List Char) : Option (List Char) :=
  let w := (cs.takeWhile pyIsWS).length
  if w = 0 then none
  else
    let valid := (occPositions sepCompat cs).filter
      (fun q => otoolTailOk (cs.drop (q + sepCompat.length)))
    match (valid.filter (fun q => w + 1 ≤ q)).getLast? with
    | some q => some ((cs.drop w).take (q - w))
    | none =>
      if 3 ≤ w && valid.contains (w - 1) then some ((cs.drop (w - 2)).take 1)
      else none

/-- `OTOOL_L_LINE.match` on a string. -/
def otoolMatch (s : String) : Option String := (otoolMatchL s.data).map String.mk

/-- The loop of `_darwin_linked` over the lines after the header: raise on
an unparsable line, drop a self-reference, keep a captured path only when it
is a file on disk. -/
def darwinLinkedGo (isfile : String → Bool) (filename : String) :
    List String → Except String (List String)
  | [] => Except.ok []
  | line :: rest =>
    match otoolMatch line with
    | none => Except.error ("unexpected otool output:\n\n" ++ line)
    | some m =>
      match darwinLinkedGo isfile filename rest with
      | Except.error e => Except.error e
      | Except.ok r =>
        if m == filename then Except.ok r
        else if isfile m then Except.ok (m :: r)
        else Except.ok r

/-- Model of `_darwin_linked` as a function of the `os.path.isfile` oracle
and the `otool -L` output lines.  An empty output raises (`lines[0]` is an
`IndexError` in the source); a wrong header raises `AssertionError`. -/
def darwinLinked (isfile : String → Bool) (filename : String)
    (lines : List String) : Except String (List String) :=
  match lines with
  | [] => Except.error "IndexError: list index out of range"
  | first :: rest =>
    if first == filename ++ ":" then darwinLinkedGo isfile filename rest
    else Except.error ("unexpected otool output:\n\n" ++ String.intercalate "\n" lines)

/-! ## The relinkers: external commands spawned

`_linux_relink` and `_darwin_relink` only spawn external processes; the
model returns the list of argument vectors, in order.  For Darwin the list
of direct references (the result of `_darwin_linked filename`) is passed in
as `linked`. -/

/-- Model of `_linux_relink`: one single `patchelf` invocation that rewrites
the rpath; the `set_name` flag and the number of references are not used. -/
def linuxRelinkCmds (filename libdir : String) (sn : Bool) : List (List String) :=
  let origin := "$ORIGIN/" ++ relpath libdir (dirname filename)
  [["patchelf", "--force-rpath", "--set-rpath", origin, filename]]

/-- Model of `_darwin_relink`: optionally one `install_name_tool -id`
invocation, then one `install_name_tool -change` invocation per direct
reference, then one `codesign` invocation. -/
def darwinRelinkCmds (filename libdir : String) (sn : Bool)
    (linked : List String) : List (List String) :=
  (if sn then
    [["install_name_tool", "-id", "@loader_path/" ++ basename filename, filename]]
  else []) ++
  linked.map (fun link =>
    ["install_name_tool", "-change", link,
      "@loader_path/" ++ relpath (pathJoin libdir (basename link)) (dirname filename),
      filename]) ++
  [["codesign", "--force", "--sign", "-", filename]]

/-- Does the list of strings start with the given pattern? -/
def startsWithLS : List String → List String → Bool
  | _, [] => true
  | [], _ :: _ => false
  | c :: cs, p :: ps => c == p && startsWithLS cs ps

/-- Does an argument vector invoke the reference-rewriting tool on a single
embedded path (`install_name_tool -change`)? -/
def isChangeCmd (c : List String) : Bool := startsWithLS c ["install_name_tool", "-change"]

/-- Does an argument vector rewrite a binary's self-identity
(`install_name_tool -id`)? -/
def isIdCmd (c : List String) : Bool := startsWithLS c ["install_name_tool", "-id"]

/-! ## `_relink_1`: the closure walk -/

/-- The mutable world of one closure walk: the destination library
directory (base name and byte content of each file, in creation order) and
the ordered log of `plat.relink` invocations (file relinked, `set_name`
flag).  Newly copied libraries are identified by their source path. -/
structure WalkState where
  dir : List (String × String)
  relinked : List (String × Bool)
deriving DecidableEq

/-- The static world outside the destination directory: `deps p` is what
`plat.linked` returns for the (not yet relinked) file at path `p`, and
`content p` is that file's content.  A library copied verbatim into the
destination directory has the same link table as its source, so the walk is
modelled on source paths. -/
structure LinkEnv where
  deps : String → List String
  content : String → String

/-- Is a file with base name `nm` present in the destination directory
(`os.path.exists(os.path.join(libdir, soname))`)? -/
def hasFile (dir : List (String × String)) (nm : String) : Bool :=
  dir.any (fun e => e.1 == nm)

/-- Content of the file named `nm` in the destination directory. -/
def lookupFile : List (String × String) → String → Option String
  | [], _ => none
  | e :: rest, nm => if e.1 == nm then some e.2 else lookupFile rest nm

/-- The first loop of `_relink_1`: for each reference in order, if no file
with its base name exists in the destination directory, copy it there
(`shutil.copy`) and add it to `to_link`.  Returns the grown directory and
`to_link` (as source paths). -/
def copyLinks (env : LinkEnv) :
    List (String × String) → List String → List (String × String) × List String
  | dir, [] => (dir, [])
  | dir, link :: rest =>
    if hasFile dir (basename link) then copyLinks env dir rest
    else
      let pr := copyLinks env (dir ++ [(basename link, env.content link)]) rest
      (pr.1, link :: pr.2)

/-- `_relink_1(filename, libdir, set_name=sn)`: read the link table, relink
the binary in place (logged), copy each yet-unseen reference into the
destination directory, then recurse into each newly copied library with
`set_name=True`.  The recursion is fuelled; `none` means the fuel ran out,
i.e. the source would still be in a deeper recursive call. -/
def relink1 (env : LinkEnv) : Nat → WalkState → String → Bool → Option WalkState
  | 0, _, _, _ => none
  | fuel + 1, st, filename, sn =>
    let pr := copyLinks env st.dir (env.deps filename)
    pr.2.foldl (fun acc t => acc.bind (fun s => relink1 env fuel s t true))
      (some ⟨pr.1, st.relinked ++ [(filename, sn)]⟩)

/-- The recursion over `to_link` at the end of `_relink_1`, named so that
lemmas can be stated about it. -/
def relinkFold (env : LinkEnv) (fuel : Nat) (ts : List String)
    (acc : Option WalkState) : Option WalkState :=
  ts.foldl (fun acc t => acc.bind (fun s => relink1 env fuel s t true)) acc

/-- A binary reaches a library if the library is in its transitive link
closure (one or more `plat.linked` steps). -/
inductive ReachTC (env : LinkEnv) : String → String → Prop
  | direct (a l : String) : l ∈ env.deps a → ReachTC env a l
  | step (a m l : String) : ReachTC env a m → l ∈ env.deps m → ReachTC env a l

theorem ReachTC.trans {env : LinkEnv} {a b c : String}
    (h1 : ReachTC env a b) (h2 : ReachTC env b c) : ReachTC env a c := by
  induction h2 with
  | direct l hl => exact ReachTC.step _ _ _ h1 hl
  | step m l _ hl ih => exact ReachTC.step _ _ _ ih hl

/-! ## Basic lemmas about the directory state -/

theorem hasFile_iff {dir : List (String × String)} {k : String} :
    hasFile dir k = true ↔ k ∈ dir.map Prod.fst := by
  simp [hasFile, List.any_eq_true, List.mem_map]

theorem hasFile_append {d e : List (String × String)} {k : String} :
    hasFile (d ++ e) k = (hasFile d k || hasFile e k) := by
  simp [hasFile, List.any_append]

theorem hasFile_mono {d e : List (String × String)} {k : String}
    (h : hasFile d k = true) : hasFile (d ++ e) k = true := by
  simp [hasFile_append, h]

theorem hasFile_append_not {d e : List (String × String)} {k : String}
    (h : hasFile (d ++ e) k = false) : hasFile d k = false := by
  rw [hasFile_append] at h
  exact (Bool.or_eq_false_iff.mp h).1

theorem lookupFile_append_of_hasFile {d : List (String × String)}
    (e : List (String × String)) {k : String} (h : hasFile d k = true) :
    lookupFile (d ++ e) k = lookupFile d k := by
  induction d with
  | nil => simp [hasFile] at h
  | cons a rest ih =>
    by_cases ha : a.1 = k
    · simp [lookupFile, ha]
    · have h' : hasFile rest k = true := by
        simpa [hasFile, ha] using h
      simp [lookupFile, ha, ih h']

/-! ## Lemmas about `copyLinks` -/

/-- The first loop of `_relink_1` appends to the destination directory
exactly one file per `to_link` entry, named by its base name. -/
theorem copyLinks_dir_eq (env : LinkEnv) :
    ∀ links dir, (copyLinks env dir links).1 =
      dir ++ (copyLinks env dir links).2.map (fun t => (basename t, env.content t)) := by
  intro links
  induction links with
  | nil => intro dir; simp [copyLinks]
  | cons link rest ih =>
    intro dir
    cases h : hasFile dir (basename link) with
    | true => simpa [copyLinks, h] using ih dir
    | false =>
      simp only [copyLinks, h]
      rw [ih (dir ++ [(basename link, env.content link)])]
      simp

theorem copyLinks_toLink_sub (env : LinkEnv) :
    ∀ links dir, ∀ t ∈ (copyLinks env dir links).2, t ∈ links := by
  intro links
  induction links with
  | nil => intro dir t ht; simp [copyLinks] at ht
  | cons link rest ih =>
    intro dir t ht
    cases h : hasFile dir (basename link) with
    | true =>
      rw [copyLinks, if_pos h] at ht
      exact List.mem_cons_of_mem _ (ih dir t ht)
    | false =>
      rw [copyLinks, if_neg (by simp [h])] at ht
      rcases List.mem_cons.mp ht with rfl | ht'
      · exact List.mem_cons_self _ _
      · exact List.mem_cons_of_mem _ (ih _ t ht')

/-- Every `to_link` entry was absent from the directory when the loop
started. -/
theorem copyLinks_toLink_new (env : LinkEnv) :
    ∀ links dir, ∀ t ∈ (copyLinks env dir links).2,
      hasFile dir (basename t) = false := by
  intro links
  induction links with
  | nil => intro dir t ht; simp [copyLinks] at ht
  | cons link rest ih =>
    intro dir t ht
    cases h : hasFile dir (basename link) with
    | true =>
      rw [copyLinks, if_pos h] at ht
      exact ih dir t ht
    | false =>
      rw [copyLinks, if_neg (by simp [h])] at ht
      rcases List.mem_cons.mp ht with rfl | ht'
      · exact h
      · exact hasFile_append_not (ih _ t ht')

theorem copyLinks_hasFile_mono (env : LinkEnv) {links : List String}
    {dir : List (String × String)} {k : String} (h : hasFile dir k = true) :
    hasFile (copyLinks env dir links).1 k = true := by
  rw [copyLinks_dir_eq env links dir]
  exact hasFile_mono h

/-- After the loop, every reference's base name is present. -/
theorem copyLinks_covers (env : LinkEnv) :
    ∀ links dir, ∀ l ∈ links, hasFile (copyLinks env dir links).1 (basename l) = true := by
  intro links
  induction links with
  | nil => intro dir l hl; simp at hl
  | cons link rest ih =>
    intro dir l hl
    cases h : hasFile dir (basename link) with
    | true =>
      rw [copyLinks, if_pos h]
      rcases List.mem_cons.mp hl with rfl | hl'
      · exact copyLinks_hasFile_mono env h
      · exact ih dir l hl'
    | false =>
      rw [copyLinks, if_neg (by simp [h])]
      rcases List.mem_cons.mp hl with rfl | hl'
      · refine copyLinks_hasFile_mono env ?_
        rw [hasFile_append]
        simp [hasFile]
      · exact ih _ l hl'

theorem copyLinks_all_present (env : LinkEnv) :
    ∀ links dir, (∀ l ∈ links, hasFile dir (basename l) = true) →
      copyLinks env dir links = (dir, []) := by
  intro links
  induction links with
  | nil => intro dir _; rfl
  | cons link rest ih =>
    intro dir hall
    rw [copyLinks, if_pos (hall link (List.mem_cons_self _ _))]
    exact ih dir (fun l hl => hall l (List.mem_cons_of_mem _ hl))

/-- De-duplication: a reference whose base name is already present copies
nothing and enqueues nothing. -/
theorem copyLinks_skip (env : LinkEnv) (dir : List (String × String))
    (link : String) (rest : List String)
    (h : hasFile dir (basename link) = true) :
    copyLinks env dir (link :: rest) = copyLinks env dir rest := by
  rw [copyLinks, if_pos h]

theorem copyLinks_nodup (env : LinkEnv) :
    ∀ links dir, (dir.map Prod.fst).Nodup →
      ((copyLinks env dir links).1.map Prod.fst).Nodup := by
  intro links
  induction links with
  | nil => intro dir h; simpa [copyLinks] using h
  | cons link rest ih =>
    intro dir h
    cases hh : hasFile dir (basename link) with
    | true =>
      rw [copyLinks, if_pos hh]
      exact ih dir h
    | false =>
      rw [copyLinks, if_neg (by simp [hh])]
      refine ih _ ?_
      have hnotin : basename link ∉ dir.map Prod.fst := by
        intro hmem
        rw [← hasFile_iff] at hmem
        simp [hh] at hmem
      simp [List.nodup_append, h, hnotin]

/-! ## Lemmas about `relink1` -/

theorem relink1_zero (env : LinkEnv) (st : WalkState) (fn : String) (sn : Bool) :
    relink1 env 0 st fn sn = none := rfl

theorem relink1_succ (env : LinkEnv) (fuel : Nat) (st : WalkState) (fn : String)
    (sn : Bool) :
    relink1 env (fuel + 1) st fn sn =
      relinkFold env fuel (copyLinks env st.dir (env.deps fn)).2
        (some ⟨(copyLinks env st.dir (env.deps fn)).1, st.relinked ++ [(fn, sn)]⟩) := rfl

theorem relinkFold_nil (env : LinkEnv) (fuel : Nat) (acc : Option WalkState) :
    relinkFold env fuel [] acc = acc := rfl

theorem relinkFold_cons_some (env : LinkEnv) (fuel : Nat) (t : String)
    (ts : List String) (s : WalkState) :
    relinkFold env fuel (t :: ts) (some s) =
      relinkFold env fuel ts (relink1 env fuel s t true) := rfl

theorem relinkFold_none (env : LinkEnv) (fuel : Nat) :
    ∀ ts, relinkFold env fuel ts none = none := by
  intro ts
  induction ts with
  | nil => rfl
  | cons t ts ih => simpa [relinkFold, List.foldl_cons] using ih

/-- Everything one successful `_relink_1(fn, libdir, set_name=sn)` call
guarantees about how the state evolved. -/
structure Inv (env : LinkEnv) (st : WalkState) (fn : String) (sn : Bool)
    (st' : WalkState) : Prop where
  /-- The directory only grows; each added file was absent before and is the
  copy of a processed library reachable from `fn`. -/
  dirExt : ∃ ext, st'.dir = st.dir ++ ext ∧
      ∀ e ∈ ext, hasFile st.dir e.1 = false ∧
        ∃ m, (m, true) ∈ st'.relinked ∧ basename m = e.1 ∧ ReachTC env fn m
  /-- The relink log grows by `fn` itself and then only by freshly copied
  libraries reachable from `fn`, all with `set_name=True`. -/
  logExt : ∃ lg, st'.relinked = st.relinked ++ (fn, sn) :: lg ∧
      ∀ e ∈ lg, e.2 = true ∧ hasFile st.dir (basename e.1) = false ∧
        ReachTC env fn e.1
  /-- Every processed file has all its references' base names present in the
  final directory. -/
  covered : ∀ m b, (m, b) ∈ st'.relinked → (m, b) ∈ st.relinked ∨
      ∀ l ∈ env.deps m, hasFile st'.dir (basename l) = true
  /-- Distinct file names stay distinct. -/
  nodup : (st.dir.map Prod.fst).Nodup → (st'.dir.map Prod.fst).Nodup

/-- The same guarantees for the recursion over one `to_link` list, relative
to the directory `d₀` the enclosing call started from. -/
structure FoldInv (env : LinkEnv) (d₀ : List (String × String)) (x : String)
    (ts : List String) (st st' : WalkState) : Prop where
  dirExt : ∃ ext, st'.dir = st.dir ++ ext ∧
      ∀ e ∈ ext, hasFile st.dir e.1 = false ∧
        ∃ m, (m, true) ∈ st'.relinked ∧ basename m = e.1 ∧ ReachTC env x m
  logExt : ∃ lg, st'.relinked = st.relinked ++ lg ∧
      ∀ e ∈ lg, e.2 = true ∧ hasFile d₀ (basename e.1) = false ∧ ReachTC env x e.1
  covered : ∀ m b, (m, b) ∈ st'.relinked → (m, b) ∈ st.relinked ∨
      ∀ l ∈ env.deps m, hasFile st'.dir (basename l) = true
  nodup : (st.dir.map Prod.fst).Nodup → (st'.dir.map Prod.fst).Nodup
  processed : ∀ t ∈ ts, (t, true) ∈ st'.relinked

theorem relinkFold_inv (env : LinkEnv) (fuel : Nat)
    (d₀ : List (String × String)) (x : String)
    (hIH : ∀ st t st', relink1 env fuel st t true = some st' → Inv env st t true st') :
    ∀ ts st st', relinkFold env fuel ts (some st) = some st' →
      (∀ t ∈ ts, hasFile d₀ (basename t) = false) →
      (∀ t ∈ ts, ReachTC env x t) →
      (∃ ed, st.dir = d₀ ++ ed) →
      FoldInv env d₀ x ts st st' := by
  intro ts
  induction ts with
  | nil =>
    intro st st' hrun _ _ _
    rw [relinkFold_nil] at hrun
    cases hrun
    exact ⟨⟨[], by simp, by simp⟩, ⟨[], by simp, by simp⟩,
      fun m b hm => Or.inl hm, id, by simp⟩
  | cons t ts ih =>
    intro st st' hrun hfresh hreach hext
    rw [relinkFold_cons_some] at hrun
    cases hc : relink1 env fuel st t true with
    | none => rw [hc, relinkFold_none] at hrun; cases hrun
    | some st₁ =>
      rw [hc] at hrun
      have inv₁ : Inv env st t true st₁ := hIH st t st₁ hc
      obtain ⟨ed, hed⟩ := hext
      obtain ⟨ex₁, hex₁, hex₁p⟩ := inv₁.dirExt
      have hext₁ : ∃ ed', st₁.dir = d₀ ++ ed' := ⟨ed ++ ex₁, by rw [hex₁, hed, List.append_assoc]⟩
      have invr : FoldInv env d₀ x ts st₁ st' :=
        ih st₁ st' hrun (fun u hu => hfresh u (List.mem_cons_of_mem _ hu))
          (fun u hu => hreach u (List.mem_cons_of_mem _ hu)) hext₁
      obtain ⟨ex₂, hex₂, hex₂p⟩ := invr.dirExt
      obtain ⟨lg₁, hlg₁, hlg₁p⟩ := inv₁.logExt
      obtain ⟨lg₂, hlg₂, hlg₂p⟩ := invr.logExt
      have hreach_t : ReachTC env x t := hreach t (List.mem_cons_self _ _)
      have hlogmono : ∀ e, e ∈ st₁.relinked → e ∈ st'.relinked := by
        intro e he; rw [hlg₂]; exact List.mem_append_left _ he
      refine ⟨⟨ex₁ ++ ex₂, ?_, ?_⟩, ⟨(t, true) :: (lg₁ ++ lg₂), ?_, ?_⟩, ?_, ?_, ?_⟩
      · rw [hex₂, hex₁, List.append_assoc]
      · intro e he
        rcases List.mem_append.mp he with h1 | h2
        · obtain ⟨hf, m, hm, hbm, hr⟩ := hex₁p e h1
          exact ⟨hf, m, hlogmono _ hm, hbm, ReachTC.trans hreach_t hr⟩
        · obtain ⟨hf, m, hm, hbm, hr⟩ := hex₂p e h2
          refine ⟨?_, m, hm, hbm, hr⟩
          rw [hex₁] at hf
          exact hasFile_append_not hf
      · rw [hlg₂, hlg₁, List.append_assoc]; rfl
      · intro e he
        rcases List.mem_cons.mp he with rfl | he'
        · exact ⟨rfl, hfresh t (List.mem_cons_self _ _), hreach_t⟩
        · rcases List.mem_append.mp he' with h1 | h2
          · obtain ⟨h2t, hf, hr⟩ := hlg₁p e h1
            refine ⟨h2t, ?_, ReachTC.trans hreach_t hr⟩
            rw [hed] at hf
            exact hasFile_append_not hf
          · exact hlg₂p e h2
      · intro m b hm
        rcases invr.covered m b hm with hin | hcov
        · rcases inv₁.covered m b hin with hin' | hcov'
          · exact Or.inl hin'
          · refine Or.inr (fun l hl => ?_)
            rw [hex₂]
            exact hasFile_mono (hcov' l hl)
        · exact Or.inr hcov
      · intro hnd
        exact invr.nodup (inv₁.nodup hnd)
      · intro u hu
        rcases List.mem_cons.mp hu with rfl | hu'
        · refine hlogmono _ ?_
          rw [hlg₁]
          exact List.mem_append_right _ (List.mem_cons_self _ _)
        · exact invr.processed u hu'

/-- The main invariant of `_relink_1`. -/
theorem relink1_inv (env : LinkEnv) :
    ∀ fuel st fn sn st', relink1 env fuel st fn sn = some st' →
      Inv env st fn sn st' := by
  intro fuel
  induction fuel with
  | zero => intro st fn sn st' h; cases h
  | succ fuel ih =>
    intro st fn sn st' h
    rw [relink1_succ] at h
    have hfold : FoldInv env st.dir fn (copyLinks env st.dir (env.deps fn)).2
        ⟨(copyLinks env st.dir (env.deps fn)).1, st.relinked ++ [(fn, sn)]⟩ st' := by
      refine relinkFold_inv env fuel st.dir fn (fun s t s' hc => ih s t true s' hc)
        _ _ st' h ?_ ?_ ?_
      · exact fun t ht => copyLinks_toLink_new env _ _ t ht
      · exact fun t ht => ReachTC.direct _ _ (copyLinks_toLink_sub env _ _ t ht)
      · exact ⟨_, copyLinks_dir_eq env _ _⟩
    obtain ⟨ex₂, hex₂, hex₂p⟩ := hfold.dirExt
    obtain ⟨lg, hlg, hlgp⟩ := hfold.logExt
    constructor
    · refine ⟨(copyLinks env st.dir (env.deps fn)).2.map
        (fun t => (basename t, env.content t)) ++ ex₂, ?_, ?_⟩
      · rw [hex₂]
        show (copyLinks env st.dir (env.deps fn)).1 ++ ex₂ = _
        rw [copyLinks_dir_eq env, List.append_assoc]
      · intro e he
        rcases List.mem_append.mp he with h1 | h2
        · obtain ⟨t, ht, rfl⟩ := List.mem_map.mp h1
          refine ⟨copyLinks_toLink_new env _ _ t ht, t, hfold.processed t ht, rfl,
            ReachTC.direct _ _ (copyLinks_toLink_sub env _ _ t ht)⟩
        · obtain ⟨hf, m, hm, hbm, hr⟩ := hex₂p e h2
          refine ⟨?_, m, hm, hbm, hr⟩
          rw [copyLinks_dir_eq env] at hf
          exact hasFile_append_not hf
    · refine ⟨lg, ?_, ?_⟩
      · rw [hlg]
        show st.relinked ++ [(fn, sn)] ++ lg = _
        simp
      · intro e he
        obtain ⟨h2t, hf, hr⟩ := hlgp e he
        exact ⟨h2t, hf, hr⟩
    · intro m b hm
      rcases hfold.covered m b hm with hin | hcov
      · rcases List.mem_append.mp hin with hin' | hone
        · exact Or.inl hin'
        · have : (m, b) = (fn, sn) := by simpa using hone
          cases this
          refine Or.inr (fun l hl => ?_)
          rw [hex₂]
          exact hasFile_mono (copyLinks_covers env _ _ l hl)
      · exact Or.inr hcov
    · intro hnd
      exact hfold.nodup (copyLinks_nodup env _ _ hnd)

/-! ## Derived facts about a walk started on an empty directory -/

/-- Every file the walk put into an initially empty directory is the copy
of some processed library reachable from the root. -/
theorem walk_keys_sound (env : LinkEnv) (root : String) (fuel : Nat)
    (st' : WalkState)
    (hrun : relink1 env fuel ⟨[], []⟩ root false = some st') :
    ∀ k, hasFile st'.dir k = true →
      ∃ m, (m, true) ∈ st'.relinked ∧ basename m = k ∧ ReachTC env root m := by
  intro k hk
  obtain ⟨ext, hext, hextp⟩ := (relink1_inv env fuel _ root false st' hrun).dirExt
  rw [hext] at hk
  have hk' : k ∈ ext.map Prod.fst := by
    rw [← hasFile_iff]
    simpa using hk
  obtain ⟨e, he, hke⟩ := List.mem_map.mp hk'
  obtain ⟨_, m, hm, hbm, hr⟩ := hextp e he
  exact ⟨m, hm, hbm.trans hke, hr⟩

/-- When distinct reachable libraries have distinct base names, every
library in the closure of the root ends up present in the directory. -/
theorem walk_complete (env : LinkEnv) (root : String) (fuel : Nat)
    (st' : WalkState)
    (hrun : relink1 env fuel ⟨[], []⟩ root false = some st')
    (hinj : ∀ a b, ReachTC env root a → ReachTC env root b →
      basename a = basename b → a = b) :
    ∀ n, ReachTC env root n → hasFile st'.dir (basename n) = true := by
  have hinv := relink1_inv env fuel _ root false st' hrun
  have hroot_mem : (root, false) ∈ st'.relinked := by
    obtain ⟨lg, hlg, _⟩ := hinv.logExt
    rw [hlg]
    simp
  have hroot_cov : ∀ l ∈ env.deps root, hasFile st'.dir (basename l) = true := by
    rcases hinv.covered root false hroot_mem with hin | hcov
    · simp at hin
    · exact hcov
  intro n hn
  induction hn with
  | direct l hl => exact hroot_cov l hl
  | step m l hm hl ih =>
    obtain ⟨m', hm', hbm', hr'⟩ := walk_keys_sound env root fuel st' hrun _ ih
    have heq : m' = m := hinj m' m hr' hm hbm'
    rw [heq] at hm'
    rcases hinv.covered m true hm' with hin | hcov
    · simp at hin
    · exact hcov l hl

/-- The count of files after a complete walk from an empty directory:
given the exact closure `clo` of the root with pairwise distinct base
names, the directory holds exactly one file per distinct base name. -/
theorem closure_walk_count (env : LinkEnv) (root : String) (clo : List String)
    (fuel : Nat) (st' : WalkState)
    (hrun : relink1 env fuel ⟨[], []⟩ root false = some st')
    (hclo : ∀ n, ReachTC env root n ↔ n ∈ clo)
    (hinj : (clo.map basename).Nodup) :
    st'.dir.length = (clo.map basename).dedup.length := by
  have hinjfun : ∀ a b, ReachTC env root a → ReachTC env root b →
      basename a = basename b → a = b := by
    intro a b ha hb hab
    exact List.inj_on_of_nodup_map hinj ((hclo a).mp ha) ((hclo b).mp hb) hab
  have hkeys_nodup : (st'.dir.map Prod.fst).Nodup := by
    have := (relink1_inv env fuel _ root false st' hrun).nodup
    simpa using this (by simp)
  have hmem : ∀ k, k ∈ st'.dir.map Prod.fst ↔ k ∈ clo.map basename := by
    intro k
    constructor
    · intro hk
      obtain ⟨m, _, hbm, hr⟩ :=
        walk_keys_sound env root fuel st' hrun k (hasFile_iff.mpr hk)
      exact List.mem_map.mpr ⟨m, (hclo m).mp hr, hbm⟩
    · intro hk
      obtain ⟨n, hn, rfl⟩ := List.mem_map.mp hk
      exact hasFile_iff.mp
        (walk_complete env root fuel st' hrun hinjfun n ((hclo n).mpr hn))
  have hfin : (st'.dir.map Prod.fst).toFinset = (clo.map basename).toFinset := by
    ext k
    simp [List.mem_toFinset, hmem k]
  have h1 : (st'.dir.map Prod.fst).length = (clo.map basename).length := by
    rw [← List.toFinset_card_of_nodup hkeys_nodup,
      ← List.toFinset_card_of_nodup hinj, hfin]
  rw [List.Nodup.dedup hinj]
  simpa using h1

/-! ## Termination of the walk -/

theorem filterLength_mono {α : Type} {p q : α → Bool}
    (h : ∀ a, q a = true → p a = true) :
    ∀ l : List α, (l.filter q).length ≤ (l.filter p).length := by
  intro l
  induction l with
  | nil => simp
  | cons a l ih =>
    by_cases hq : q a = true
    · rw [List.filter_cons_of_pos hq, List.filter_cons_of_pos (h a hq)]
      simpa using ih
    · rw [List.filter_cons_of_neg (by simpa using hq)]
      by_cases hp : p a = true
      · rw [List.filter_cons_of_pos hp]
        exact Nat.le_succ_of_le ih
      · rw [List.filter_cons_of_neg (by simpa using hp)]
        exact ih

theorem filterLength_strict {α : Type} {p q : α → Bool}
    (h : ∀ a, q a = true → p a = true) {a₀ : α} :
    ∀ l : List α, a₀ ∈ l → p a₀ = true → q a₀ = false →
      (l.filter q).length < (l.filter p).length := by
  intro l
  induction l with
  | nil => intro h1; simp at h1
  | cons a l ih =>
    intro hmem hp hq
    rcases List.mem_cons.mp hmem with rfl | hmem'
    · rw [List.filter_cons_of_pos hp, List.filter_cons_of_neg (by simp [hq])]
      exact Nat.lt_succ_of_le (filterLength_mono h l)
    · by_cases hqa : q a = true
      · rw [List.filter_cons_of_pos (h a hqa), List.filter_cons_of_pos hqa]
        simpa using ih hmem' hp hq
      · rw [List.filter_cons_of_neg (by simpa using hqa)]
        by_cases hpa : p a = true
        · rw [List.filter_cons_of_pos hpa]
          exact Nat.lt_succ_of_lt (ih hmem' hp hq)
        · rw [List.filter_cons_of_neg (by simpa using hpa)]
          exact ih hmem' hp hq

/-- How many of the given base names are still missing from the directory. -/
def missingCount (names : List String) (dir : List (String × String)) : Nat :=
  (names.filter (fun k => !hasFile dir k)).length

theorem missingCount_append (names : List String)
    (dir ext : List (String × String)) :
    missingCount names (dir ++ ext) ≤ missingCount names dir := by
  refine filterLength_mono (fun a ha => ?_) names
  have h1 : hasFile (dir ++ ext) a = false := by simpa using ha
  simpa using hasFile_append_not h1

theorem relink1_missing_le (env : LinkEnv) (names : List String) {fuel : Nat}
    {st st' : WalkState} {fn : String} {sn : Bool}
    (h : relink1 env fuel st fn sn = some st') :
    missingCount names st'.dir ≤ missingCount names st.dir := by
  obtain ⟨ext, hext, _⟩ := (relink1_inv env fuel st fn sn st' h).dirExt
  rw [hext]
  exact missingCount_append names st.dir ext

/-- With fuel exceeding the number of still-missing base names of the
closure, `_relink_1` completes: the de-duplication guard lets every level
of the recursion copy at least one new base name, and there are finitely
many. -/
theorem relink1_total (env : LinkEnv) (names : List String) :
    ∀ fuel x st sn,
      (∀ n, ReachTC env x n → basename n ∈ names) →
      missingCount names st.dir < fuel →
      ∃ st', relink1 env fuel st x sn = some st' := by
  intro fuel
  induction fuel with
  | zero => intro x st sn _ hlt; exact absurd hlt (Nat.not_lt_zero _)
  | succ fuel ih =>
    intro x st sn hx hlt
    rw [relink1_succ]
    cases htl : (copyLinks env st.dir (env.deps x)).2 with
    | nil => exact ⟨_, rfl⟩
    | cons t₀ ts₀ =>
      have ht₀ : t₀ ∈ (copyLinks env st.dir (env.deps x)).2 := by
        rw [htl]
        exact List.mem_cons_self _ _
      have hbound : missingCount names (copyLinks env st.dir (env.deps x)).1 < fuel := by
        have hmemnames : basename t₀ ∈ names :=
          hx t₀ (ReachTC.direct _ _ (copyLinks_toLink_sub env _ _ t₀ ht₀))
        have hold : hasFile st.dir (basename t₀) = false :=
          copyLinks_toLink_new env _ _ t₀ ht₀
        have hnew : hasFile (copyLinks env st.dir (env.deps x)).1 (basename t₀) = true :=
          copyLinks_covers env _ _ t₀ (copyLinks_toLink_sub env _ _ t₀ ht₀)
        have hstrict : missingCount names (copyLinks env st.dir (env.deps x)).1 <
            missingCount names st.dir := by
          refine filterLength_strict ?_ names hmemnames ?_ ?_
          · intro a ha
            have h1 : hasFile (copyLinks env st.dir (env.deps x)).1 a = false := by
              simpa using ha
            rw [copyLinks_dir_eq env] at h1
            simpa using hasFile_append_not h1
          · simpa using hold
          · simpa using hnew
        omega
      have hfold : ∀ ts s, (∀ t ∈ ts, ∀ n, ReachTC env t n → basename n ∈ names) →
          missingCount names s.dir < fuel →
          ∃ s', relinkFold env fuel ts (some s) = some s' := by
        intro ts
        induction ts with
        | nil => intro s _ _; exact ⟨s, rfl⟩
        | cons t ts ihts =>
          intro s hts hlt'
          obtain ⟨s₁, hs₁⟩ := ih t s true (hts t (List.mem_cons_self _ _)) hlt'
          rw [relinkFold_cons_some, hs₁]
          refine ihts s₁ (fun u hu => hts u (List.mem_cons_of_mem _ hu)) ?_
          exact lt_of_le_of_lt (relink1_missing_le env names hs₁) hlt'
      refine hfold (t₀ :: ts₀)
        ⟨(copyLinks env st.dir (env.deps x)).1, st.relinked ++ [(x, sn)]⟩ ?_ hbound
      intro t ht n hn
      have ht' : t ∈ (copyLinks env st.dir (env.deps x)).2 := by
        rw [htl]
        exact ht
      exact hx n
        (ReachTC.trans (ReachTC.direct _ _ (copyLinks_toLink_sub env _ _ t ht')) hn)

/-- The closure walk terminates whenever the base names of the closure are
finitely many (claim: each library is enqueued at most once). -/
theorem walk_terminates (env : LinkEnv) (root : String) (st : WalkState)
    (sn : Bool) (names : List String)
    (hnames : ∀ n, ReachTC env root n → basename n ∈ names) :
    ∃ fuel st', relink1 env fuel st root sn = some st' := by
  obtain ⟨st', h⟩ := relink1_total env names (missingCount names st.dir + 1)
    root st sn hnames (by omega)
  exact ⟨_, st', h⟩

/-! ## A family of linear dependency chains

`chainEnv bound` is the environment in which the library `natName i`
(`i` letters `a`, for `1 ≤ i < bound`) links exactly `natName (i+1)` and
`natName bound` links nothing: a dependency chain of length `bound`.  It
witnesses that the recursion depth `_relink_1` needs grows with the length
of the dependency chain. -/

theorem foldl_basename_no_slash :
    ∀ (cs acc : List Char), (∀ c ∈ cs, c ≠ '/') →
      cs.foldl (fun acc c => if c = '/' then [] else acc ++ [c]) acc = acc ++ cs := by
  intro cs
  induction cs with
  | nil => intro acc _; simp
  | cons c cs ih =>
    intro acc h
    have hc : c ≠ '/' := h c (List.mem_cons_self _ _)
    simp only [List.foldl_cons, if_neg hc]
    rw [ih (acc ++ [c]) (fun d hd => h d (List.mem_cons_of_mem _ hd))]
    simp

theorem basename_no_slash {s : String} (h : ∀ c ∈ s.data, c ≠ '/') :
    basename s = s := by
  show String.mk (basenameL s.data) = s
  rw [basenameL, foldl_basename_no_slash s.data [] h]
  rfl

/-- A path of `n` letters `a`. -/
def natName (n : Nat) : String := String.mk (List.replicate n 'a')

theorem natName_inj {a b : Nat} (h : natName a = natName b) : a = b := by
  have := congrArg (fun s => s.data.length) h
  simpa [natName] using this

theorem basename_natName (n : Nat) : basename (natName n) = natName n := by
  refine basename_no_slash ?_
  intro c hc
  have : c = 'a' := List.eq_of_mem_replicate hc
  subst this
  decide

/-- The linear-chain environment. -/
def chainEnv (bound : Nat) : LinkEnv where
  deps := fun s =>
    if s.data = List.replicate s.data.length 'a' ∧
        1 ≤ s.data.length ∧ s.data.length < bound
    then [natName (s.data.length + 1)] else []
  content := fun _ => ""

theorem chainEnv_deps_eq (bound i : Nat) :
    (chainEnv bound).deps (natName i) =
      if 1 ≤ i ∧ i < bound then [natName (i + 1)] else [] := by
  simp [chainEnv, natName]

theorem copyLinks_singleton_absent (env : LinkEnv)
    (dir : List (String × String)) (l : String)
    (h : hasFile dir (basename l) = false) :
    copyLinks env dir [l] = (dir ++ [(basename l, env.content l)], [l]) := by
  rw [copyLinks, if_neg (by simp [h])]
  rfl

/-- With a chain of `bound - i + 1` libraries still ahead, fuel `bound - i`
is not enough: the recursion reaches depth `bound - i` and dies. -/
theorem chain_out_of_fuel (bound : Nat) :
    ∀ fuel i (st : WalkState) (sn : Bool), 1 ≤ i → fuel + i ≤ bound →
      (∀ j, i < j → hasFile st.dir (natName j) = false) →
      relink1 (chainEnv bound) fuel st (natName i) sn = none := by
  intro fuel
  induction fuel with
  | zero => intro i st sn _ _ _; rfl
  | succ fuel ih =>
    intro i st sn h1 h2 hfresh
    have hi : i < bound := by omega
    rw [relink1_succ]
    have hdeps : (chainEnv bound).deps (natName i) = [natName (i + 1)] := by
      rw [chainEnv_deps_eq, if_pos ⟨h1, hi⟩]
    rw [hdeps]
    have hnf : hasFile st.dir (basename (natName (i + 1))) = false := by
      rw [basename_natName]
      exact hfresh (i + 1) (by omega)
    rw [copyLinks_singleton_absent _ _ _ hnf, relinkFold_cons_some, relinkFold_nil]
    refine ih (i + 1) _ true (by omega) (by omega) ?_
    intro j hj
    show hasFile (st.dir ++
      [(basename (natName (i + 1)), (chainEnv bound).content (natName (i + 1)))])
      (natName j) = false
    rw [hasFile_append, hfresh j (by omega), basename_natName]
    have hne : natName (i + 1) ≠ natName j := fun he => by
      have := natName_inj he
      omega
    simp [hasFile, hne]

/-- Fuel `bound - i + 1` always suffices for the chain suffix starting at
`i`. -/
theorem chain_enough_fuel (bound : Nat) :
    ∀ fuel i (st : WalkState) (sn : Bool), 1 ≤ i → 1 ≤ fuel → bound + 1 ≤ fuel + i →
      (relink1 (chainEnv bound) fuel st (natName i) sn).isSome = true := by
  intro fuel
  induction fuel with
  | zero => intro i st sn _ h0 _; exact absurd h0 (by omega)
  | succ fuel ih =>
    intro i st sn h1 _ h3
    rw [relink1_succ]
    by_cases hi : i < bound
    · have hdeps : (chainEnv bound).deps (natName i) = [natName (i + 1)] := by
        rw [chainEnv_deps_eq, if_pos ⟨h1, hi⟩]
      rw [hdeps]
      cases hpres : hasFile st.dir (basename (natName (i + 1))) with
      | true =>
        rw [copyLinks_skip _ _ _ _ hpres]
        simp [copyLinks, relinkFold_nil]
      | false =>
        rw [copyLinks_singleton_absent _ _ _ hpres, relinkFold_cons_some, relinkFold_nil]
        exact ih (i + 1) _ true (by omega) (by omega) (by omega)
    · have hdeps : (chainEnv bound).deps (natName i) = [] := by
        rw [chainEnv_deps_eq, if_neg (by omega)]
      rw [hdeps]
      simp [copyLinks, relinkFold_nil]

/-! ## Lemmas about the link inspectors -/

/-- Paths in the ignore set never reach `_linux_linked`'s result. -/
theorem linuxLinked_excludes (ignored : List String) :
    ∀ lines ret, linuxLinked ignored lines = Except.ok ret →
      ∀ p ∈ ret, p ∉ ignored := by
  intro lines
  induction lines with
  | nil =>
    intro ret h p hp
    cases h
    simp at hp
  | cons line rest ih =>
    intro ret h p hp
    simp only [linuxLinked] at h
    split at h
    · next q hq =>
      split at h
      · next r hr =>
        injection h with h
        subst h
        by_cases hmem : q ∈ ignored
        · rw [if_pos hmem] at hp
          exact ih r hr p hp
        · rw [if_neg hmem] at hp
          rcases List.mem_cons.mp hp with rfl | hp'
          · exact hmem
          · exact ih r hr p hp'
      · next e he => cases h
    · next hq =>
      split at h
      · exact ih ret h p hp
      · split at h
        · exact ih ret h p hp
        · cases h

/-- `_linux_linked` returns successfully only when every output line is in a
recognized format. -/
theorem linuxLinked_recognizes (ignored : List String) :
    ∀ lines ret, linuxLinked ignored lines = Except.ok ret →
      ∀ line ∈ lines, linuxRecognized line = true := by
  intro lines
  induction lines with
  | nil => intro ret h l hl; simp at hl
  | cons line rest ih =>
    intro ret h l hl
    simp only [linuxLinked] at h
    split at h
    · next q hq =>
      rcases List.mem_cons.mp hl with rfl | hl'
      · simp [linuxRecognized, hq]
      · split at h
        · next r hr => exact ih r hr l hl'
        · next e he => cases h
    · next hq =>
      split at h
      · next hs =>
        rcases List.mem_cons.mp hl with rfl | hl'
        · simp [linuxRecognized, hs]
        · exact ih ret h l hl'
      · next hs =>
        split at h
        · next hv =>
          rcases List.mem_cons.mp hl with rfl | hl'
          · simp [linuxRecognized, hv]
          · exact ih ret h l hl'
        · next hv => cases h

/-- A vdso / dynamic-loader line (in its usual non-arrow form) contributes
nothing to the result of `_linux_linked`. -/
theorem linuxLinked_skips (ignored : List String) (line : String)
    (rest : List String) (hm : lddParseS (pyStrip line) = none)
    (hv : lddSkipped (pyStrip line) = true) :
    linuxLinked ignored (line :: rest) = linuxLinked ignored rest := by
  simp only [linuxLinked, hm]
  by_cases hs : (pyStrip line == "statically linked") = true
  · rw [if_pos hs]
  · rw [if_neg hs, if_pos hv]

/-- Everything a successful `_darwin_linked` loop guarantees: every line
parsed, the inspected file itself filtered out, and only on-disk files
reported. -/
theorem darwinLinkedGo_facts (isfile : String → Bool) (filename : String) :
    ∀ lines ret, darwinLinkedGo isfile filename lines = Except.ok ret →
      (∀ line ∈ lines, (otoolMatch line).isSome = true) ∧
      filename ∉ ret ∧ (∀ p ∈ ret, isfile p = true) := by
  intro lines
  induction lines with
  | nil =>
    intro ret h
    cases h
    exact ⟨by simp, by simp, by simp⟩
  | cons line rest ih =>
    intro ret h
    simp only [darwinLinkedGo] at h
    split at h
    · cases h
    · next m hm =>
      split at h
      · next e he => cases h
      · next r hr =>
        obtain ⟨ih1, ih2, ih3⟩ := ih r hr
        have hlines : ∀ l ∈ line :: rest, (otoolMatch l).isSome = true := by
          intro l hl
          rcases List.mem_cons.mp hl with rfl | hl'
          · simp [hm]
          · exact ih1 l hl'
        by_cases hmf : (m == filename) = true
        · rw [if_pos hmf] at h
          injection h with h
          subst h
          exact ⟨hlines, ih2, ih3⟩
        · rw [if_neg hmf] at h
          by_cases hf : isfile m = true
          · rw [if_pos hf] at h
            injection h with h
            subst h
            refine ⟨hlines, ?_, ?_⟩
            · intro hmem
              rcases List.mem_cons.mp hmem with heq | hmem'
              · rw [heq] at hmf
                simp at hmf
              · exact ih2 hmem'
            · intro p hp
              rcases List.mem_cons.mp hp with rfl | hp'
              · exact hf
              · exact ih3 p hp'
          · rw [if_neg hf] at h
            injection h with h
            subst h
            exact ⟨hlines, ih2, ih3⟩

/-- The same guarantees for `_darwin_linked`, together with the header
check. -/
theorem darwinLinked_facts (isfile : String → Bool) (filename : String) :
    ∀ lines ret, darwinLinked isfile filename lines = Except.ok ret →
      (∃ rest, lines = (filename ++ ":") :: rest ∧
        (∀ line ∈ rest, (otoolMatch line).isSome = true)) ∧
      filename ∉ ret ∧ (∀ p ∈ ret, isfile p = true) := by
  intro lines ret h
  cases lines with
  | nil => cases h
  | cons first rest =>
    simp only [darwinLinked] at h
    by_cases hh : (first == filename ++ ":") = true
    · rw [if_pos hh] at h
      obtain ⟨h1, h2, h3⟩ := darwinLinkedGo_facts isfile filename rest ret h
      have : first = filename ++ ":" := by simpa using hh
      subst this
      exact ⟨⟨rest, rfl, h1⟩, h2, h3⟩
    · rw [if_neg hh] at h
      cases h

/-! ## Helpers for counting relinker invocations -/

theorem filter_map_length {α β : Type} (f : α → β) (p : β → Bool)
    (h : ∀ a, p (f a) = true) : ∀ l : List α,
      ((l.map f).filter p).length = l.length := by
  intro l
  induction l with
  | nil => rfl
  | cons a l ih => simp [List.filter_cons, h a, ih]

theorem filter_map_length_zero {α β : Type} (f : α → β) (p : β → Bool)
    (h : ∀ a, p (f a) = false) : ∀ l : List α,
      ((l.map f).filter p).length = 0 := by
  intro l
  induction l with
  | nil => rfl
  | cons a l ih => simp [List.filter_cons, h a, ih]

/-- Does an argument vector re-sign the binary (`codesign`)? -/
def isCodesignCmd (c : List String) : Bool := startsWithLS c ["codesign"]

/-! ## Concrete environments and samples used by the claims -/

/-- A graph with a base-name collision: the root links `/p1/libx.so` and
`/p2/libx.so` (same base name, different paths), and only `/p2/libx.so`
links `/p3/liby.so`. -/
def aliasEnv : LinkEnv where
  deps := fun s =>
    if s = "/r/bin/app" then ["/p1/libx.so", "/p2/libx.so"]
    else if s = "/p2/libx.so" then ["/p3/liby.so"]
    else []
  content := fun s => s

/-- The one-library graph of the spec's concrete scenario. -/
def w1Env : LinkEnv where
  deps := fun s => if s = "/bin/app" then ["/opt/libfoo.so"] else []
  content := fun s => s

theorem w1Env_reach : ∀ n, ReachTC w1Env "/bin/app" n ↔ n ∈ ["/opt/libfoo.so"] := by
  intro n
  constructor
  · intro h
    induction h with
    | direct l hl => simpa [w1Env] using hl
    | step m l hm hl ih =>
      have : m = "/opt/libfoo.so" := by simpa using ih
      subst this
      simp [w1Env] at hl
  · intro h
    have : n = "/opt/libfoo.so" := by simpa using h
    subst this
    exact ReachTC.direct _ _ (by simp [w1Env])

/-- Two synthetic libraries that reference each other (the spec's cycle
test), hung below a root binary. -/
def cycEnv : LinkEnv where
  deps := fun s =>
    if s = "/r/app" then ["/p/libA.so"]
    else if s = "/p/libA.so" then ["/q/libB.so"]
    else if s = "/q/libB.so" then ["/p/libA.so"]
    else []
  content := fun s => s

theorem cycEnv_nodes : ∀ n, ReachTC cycEnv "/r/app" n →
    n = "/p/libA.so" ∨ n = "/q/libB.so" := by
  intro n h
  induction h with
  | direct l hl => left; simpa [cycEnv] using hl
  | step m l hm hl ih =>
    rcases ih with rfl | rfl
    · right; simpa [cycEnv] using hl
    · left; simpa [cycEnv] using hl

/-- Root with children A and B where only A has a further dependency C. -/
def c3Env : LinkEnv where
  deps := fun s =>
    if s = "/r/bin/app" then ["/x/libA.so", "/x/libB.so"]
    else if s = "/x/libA.so" then ["/x/libC.so"]
    else []
  content := fun s => s

/-- Root linking a single library. -/
def c4Env : LinkEnv where
  deps := fun s => if s = "/r/app" then ["/o/libA.so"] else []
  content := fun s => s

/-- Root linking `/new/libx.so` whose content differs from the `libx.so`
already vendored. -/
def c10Env : LinkEnv where
  deps := fun s => if s = "/r/app" then ["/new/libx.so"] else []
  content := fun _ => "NEW"

/-- The `dpkg -L libc6` sample of the repository's test suite. -/
def dpkgSample : List String :=
  ["/.", "/etc", "/etc/ld.so.conf.d/",
   "/etc/ld.so.conf.d/aarch64-linux-gnu.conf", "/lib",
   "/lib/aarch64-linux-gnu", "/lib/aarch64-linux-gnu/ld-linux-aarch64.so.1",
   "/lib/aarch64-linux-gnu/libc.so.6",
   "/usr/lib/aarch64-linux-gnu/gconv/BIG5.so",
   "/usr/share/doc/libc6/NEWS.gz", "/lib/ld-linux-aarch64.so.1"]

/-- The `ldd` output sample of the repository's test suite. -/
def lddSample : List String :=
  ["\tlinux-vdso.so.1 (0x0000ffff9f326000)",
   "\tlibm.so.6 => /lib/aarch64-linux-gnu/libm.so.6 (0x0000ffff9ec70000)",
   "\tlibexpat.so.1 => /lib/aarch64-linux-gnu/libexpat.so.1 (0x0000ffff9ec30000)",
   "\tlibz.so.1 => /lib/aarch64-linux-gnu/libz.so.1 (0x0000ffff9ec00000)",
   "\tlibc.so.6 => /lib/aarch64-linux-gnu/libc.so.6 (0x0000ffff9ea50000)",
   "\t/lib/ld-linux-aarch64.so.1 (0x0000ffff9f2ed000)",
   "\t/lib64/ld-linux-aarch64.so.1 (0x0000ffff9f2ed000)"]

/-- An `otool -L` output sample (after the repository's test suite). -/
def otoolSample : List String :=
  ["/t/l/_ssl.cpython-38-darwin.so:",
   "\t/t/o/lib/libssl.1.1.dylib (compatibility version 1.1.0, current version 1.1.0)",
   "\t/t/o/lib/libcrypto.1.1.dylib (compatibility version 1.1.0, current version 1.1.0)",
   "\t/usr/lib/libSystem.B.dylib (compatibility version 1.0.0, current version 1311.100.3)"]

/-- An `otool -L` output in which the library reports linking itself. -/
def otoolSampleSelf : List String :=
  ["/t/o/lib/libssl.1.1.dylib:",
   "\t/t/o/lib/libssl.1.1.dylib (compatibility version 1.1.0, current version 1.1.0)",
   "\t/t/o/lib/libcrypto.1.1.dylib (compatibility version 1.1.0, current version 1.1.0)",
   "\t/usr/lib/libSystem.B.dylib (compatibility version 1.0.0, current version 1311.100.3)"]

/-- `os.path.isfile` oracle: exactly the two openssl libraries exist. -/
def osslIsfile : String → Bool := fun p =>
  p == "/t/o/lib/libssl.1.1.dylib" || p == "/t/o/lib/libcrypto.1.1.dylib"

/-! ## The claims -/

/-- C1 (counterexample): the closure of `/r/bin/app` in `aliasEnv` has
three libraries with two distinct base names (`libx.so`, `liby.so`), yet
the walk from an empty destination directory leaves exactly one file
there: `/p2/libx.so` is treated as already satisfied by `/p1/libx.so`'s
copy, so its dependency `/p3/liby.so` is never discovered. -/
theorem claim_C1_counterexample :
    relink1 aliasEnv 3 ⟨[], []⟩ "/r/bin/app" false =
      some ⟨[("libx.so", "/p1/libx.so")],
        [("/r/bin/app", false), ("/p1/libx.so", true)]⟩ ∧
    ReachTC aliasEnv "/r/bin/app" "/p1/libx.so" ∧
    ReachTC aliasEnv "/r/bin/app" "/p2/libx.so" ∧
    ReachTC aliasEnv "/r/bin/app" "/p3/liby.so" ∧
    ((["/p1/libx.so", "/p2/libx.so", "/p3/liby.so"].map basename).dedup.length = 2) ∧
    ([("libx.so", "/p1/libx.so")] : List (String × String)).length = 1 ∧
    hasFile [("libx.so", "/p1/libx.so")] "liby.so" = false := by
  refine ⟨by decide, ?_, ?_, ?_, by decide, by decide, by decide⟩
  · exact ReachTC.direct "/r/bin/app" "/p1/libx.so" (by simp [aliasEnv])
  · exact ReachTC.direct "/r/bin/app" "/p2/libx.so" (by simp [aliasEnv])
  · exact ReachTC.step "/r/bin/app" "/p2/libx.so" "/p3/liby.so"
      (ReachTC.direct "/r/bin/app" "/p2/libx.so" (by simp [aliasEnv]))
      (by simp [aliasEnv])

/-- C1 (amended): for every root binary whose dependency closure
(restricted to the non-system libraries the Link Inspector reports) has
N distinct base file names, and in which distinct libraries have distinct
base names, running the closure walk against an initially empty
destination library directory leaves that directory containing exactly N
files. -/
theorem claim_C1_amended (env : LinkEnv) (root : String) (clo : List String)
    (fuel : Nat) (st' : WalkState)
    (hrun : relink1 env fuel ⟨[], []⟩ root false = some st')
    (hclo : ∀ n, ReachTC env root n ↔ n ∈ clo)
    (hinj : (clo.map basename).Nodup) :
    st'.dir.length = (clo.map basename).dedup.length :=
  closure_walk_count env root clo fuel st' hrun hclo hinj

/-- Witness for the amended C1 on the one-library graph `w1Env`. -/
theorem claim_C1_amended_witness :
    (⟨[("libfoo.so", "/opt/libfoo.so")],
      [("/bin/app", false), ("/opt/libfoo.so", true)]⟩ : WalkState).dir.length =
      ((["/opt/libfoo.so"] : List String).map basename).dedup.length :=
  claim_C1_amended w1Env "/bin/app" ["/opt/libfoo.so"] 2
    ⟨[("libfoo.so", "/opt/libfoo.so")],
      [("/bin/app", false), ("/opt/libfoo.so", true)]⟩
    (by decide) w1Env_reach (by decide)

/-- C2: for every root binary and destination directory the closure walk
terminates — also on cyclic graphs — because a library whose base name is
already present is never enqueued again and the distinct base names of
the closure are finitely many. -/
theorem claim_C2 (env : LinkEnv) (root : String) (st : WalkState) (sn : Bool)
    (names : List String)
    (hnames : ∀ n, ReachTC env root n → basename n ∈ names) :
    ∃ fuel st', relink1 env fuel st root sn = some st' :=
  walk_terminates env root st sn names hnames

/-- Witness for C2 on the cyclic pair `libA ↔ libB`. -/
theorem claim_C2_witness :
    ∃ fuel st', relink1 cycEnv fuel ⟨[], []⟩ "/r/app" false = some st' :=
  claim_C2 cycEnv "/r/app" ⟨[], []⟩ false ["libA.so", "libB.so"]
    (fun n hn => by
      rcases cycEnv_nodes n hn with rfl | rfl
      · decide
      · decide)

/-- C3 (counterexample): the walk is not breadth-first: in `c3Env` the
library `/x/libC.so`, which is not a direct reference of the root but is a
reference of the depth-1 library `/x/libA.so`, is relinked before the
depth-1 library `/x/libB.so`, as the relink log shows. -/
theorem claim_C3_counterexample :
    relink1 c3Env 4 ⟨[], []⟩ "/r/bin/app" false =
      some ⟨[("libA.so", "/x/libA.so"), ("libB.so", "/x/libB.so"),
             ("libC.so", "/x/libC.so")],
            [("/r/bin/app", false), ("/x/libA.so", true),
             ("/x/libC.so", true), ("/x/libB.so", true)]⟩ ∧
    "/x/libB.so" ∈ c3Env.deps "/r/bin/app" ∧
    "/x/libC.so" ∉ c3Env.deps "/r/bin/app" ∧
    "/x/libC.so" ∈ c3Env.deps "/x/libA.so" := by
  exact ⟨by decide, by decide, by decide, by decide⟩

/-- C3 (amended): the closure walk is implemented by direct recursion,
not an explicit queue: all of a binary's newly discovered references are
copied before any is recursed into, but relinking is depth-first (a
library at depth d+1 may be relinked before one at depth d), and the
recursion depth grows with the dependency-chain length — on the chain of
N+1 libraries, recursion depth (fuel) N does not complete and N+1 does. -/
theorem claim_C3_amended :
    ∀ N : Nat, relink1 (chainEnv (N + 1)) N ⟨[], []⟩ (natName 1) false = none ∧
      (relink1 (chainEnv (N + 1)) (N + 1) ⟨[], []⟩ (natName 1) false).isSome = true := by
  intro N
  constructor
  · exact chain_out_of_fuel (N + 1) N 1 ⟨[], []⟩ false (by omega) (by omega)
      (fun j _ => rfl)
  · exact chain_enough_fuel (N + 1) (N + 1) 1 ⟨[], []⟩ false (by omega) (by omega)
      (by omega)

/-- C4: a library is copied at most once per walk, keyed by base name: a
reference whose base name is already present copies and enqueues nothing,
and running the walk a second time against the directory produced by a
first run adds, removes, and changes no file (the second run is a no-op
on the library set and relinks only the root). -/
theorem claim_C4 (env : LinkEnv) (root : String) (d₀ : List (String × String))
    (fuel : Nat) (st₁ : WalkState)
    (hrun : relink1 env fuel ⟨d₀, []⟩ root false = some st₁) :
    (∀ dir link rest, hasFile dir (basename link) = true →
        copyLinks env dir (link :: rest) = copyLinks env dir rest) ∧
    (∀ fuel₂, relink1 env (fuel₂ + 1) ⟨st₁.dir, []⟩ root false =
        some ⟨st₁.dir, [(root, false)]⟩) := by
  constructor
  · exact fun dir link rest h => copyLinks_skip env dir link rest h
  · intro fuel₂
    have hinv := relink1_inv env fuel _ root false st₁ hrun
    have hroot_mem : (root, false) ∈ st₁.relinked := by
      obtain ⟨lg, hlg, _⟩ := hinv.logExt
      rw [hlg]
      simp
    have hcov : ∀ l ∈ env.deps root, hasFile st₁.dir (basename l) = true := by
      rcases hinv.covered root false hroot_mem with hin | hcov
      · simp at hin
      · exact hcov
    rw [relink1_succ]
    show relinkFold env fuel₂ (copyLinks env st₁.dir (env.deps root)).2
      (some ⟨(copyLinks env st₁.dir (env.deps root)).1, [(root, false)]⟩) =
      some ⟨st₁.dir, [(root, false)]⟩
    rw [copyLinks_all_present env (env.deps root) st₁.dir hcov]
    rfl

/-- Witness for C4: running the walk of `c4Env` a second time on the
directory the first run produced changes nothing and relinks only the
root. -/
theorem claim_C4_witness :
    relink1 c4Env 1 ⟨[("libA.so", "/o/libA.so")], []⟩ "/r/app" false =
      some ⟨[("libA.so", "/o/libA.so")], [("/r/app", false)]⟩ :=
  (claim_C4 c4Env "/r/app" [] 2
    ⟨[("libA.so", "/o/libA.so")], [("/r/app", false), ("/o/libA.so", true)]⟩
    (by decide)).2 0

/-- C5: no path in the precomputed base-system exclusion set
(`_libc6_links`) ever appears in `_linux_linked`'s result, and the vdso /
dynamic-loader lines (in their non-arrow form) contribute nothing to it. -/
theorem claim_C5 :
    (∀ dpkg lines ret, linuxLinked (libc6Links dpkg) lines = Except.ok ret →
       ∀ p ∈ ret, p ∉ libc6Links dpkg) ∧
    (∀ ignored line rest, lddParseS (pyStrip line) = none →
       lddSkipped (pyStrip line) = true →
       linuxLinked ignored (line :: rest) = linuxLinked ignored rest) :=
  ⟨fun dpkg lines ret h => linuxLinked_excludes (libc6Links dpkg) lines ret h,
   fun ignored line rest hm hv => linuxLinked_skips ignored line rest hm hv⟩

/-- Witness for C5 on the repository's own `dpkg` and `ldd` samples. -/
theorem claim_C5_witness :
    (∀ p ∈ ["/lib/aarch64-linux-gnu/libm.so.6",
            "/lib/aarch64-linux-gnu/libexpat.so.1",
            "/lib/aarch64-linux-gnu/libz.so.1"], p ∉ libc6Links dpkgSample) ∧
    linuxLinked [] ["\tlinux-vdso.so.1 (0x0000ffff9f326000)"] = linuxLinked [] [] :=
  ⟨claim_C5.1 dpkgSample lddSample _ (by decide),
   claim_C5.2 [] "\tlinux-vdso.so.1 (0x0000ffff9f326000)" [] (by decide) (by decide)⟩

/-- C6: the Link Inspectors succeed only when every introspection line is
in a recognized format — on Linux every line is an arrow line, `statically
linked`, or a vdso/loader line; on Darwin the header is `<filename>:` and
every further line matches the `otool -L` shape.  Unrecognized output
therefore always aborts the walk. -/
theorem claim_C6 :
    (∀ ignored lines ret, linuxLinked ignored lines = Except.ok ret →
       ∀ line ∈ lines, linuxRecognized line = true) ∧
    (∀ isfile fn lines ret, darwinLinked isfile fn lines = Except.ok ret →
       ∃ rest, lines = (fn ++ ":") :: rest ∧
         ∀ line ∈ rest, (otoolMatch line).isSome = true) :=
  ⟨fun ignored lines ret h => linuxLinked_recognizes ignored lines ret h,
   fun isfile fn lines ret h => (darwinLinked_facts isfile fn lines ret h).1⟩

/-- Witness for C6 on the `ldd` and `otool` samples. -/
theorem claim_C6_witness :
    (∀ line ∈ lddSample, linuxRecognized line = true) ∧
    (∃ rest, otoolSample = ("/t/l/_ssl.cpython-38-darwin.so" ++ ":") :: rest ∧
      ∀ line ∈ rest, (otoolMatch line).isSome = true) :=
  ⟨claim_C6.1 (libc6Links dpkgSample) lddSample
     ["/lib/aarch64-linux-gnu/libm.so.6", "/lib/aarch64-linux-gnu/libexpat.so.1",
      "/lib/aarch64-linux-gnu/libz.so.1"] (by decide),
   claim_C6.2 osslIsfile "/t/l/_ssl.cpython-38-darwin.so" otoolSample
     ["/t/o/lib/libssl.1.1.dylib", "/t/o/lib/libcrypto.1.1.dylib"] (by decide)⟩

/-- C7: when the Darwin introspection output reports the inspected binary
as depending on itself, that self-entry is excluded from the returned
reference list. -/
theorem claim_C7 (isfile : String → Bool) (filename : String)
    (lines : List String) (ret : List String)
    (h : darwinLinked isfile filename lines = Except.ok ret) :
    filename ∉ ret :=
  (darwinLinked_facts isfile filename lines ret h).2.1

/-- Witness for C7 on the self-referencing `otool` sample. -/
theorem claim_C7_witness :
    "/t/o/lib/libssl.1.1.dylib" ∉ ["/t/o/lib/libcrypto.1.1.dylib"] :=
  claim_C7 osslIsfile "/t/o/lib/libssl.1.1.dylib" otoolSampleSelf
    ["/t/o/lib/libcrypto.1.1.dylib"] (by decide)

/-- C8 (counterexample): on Linux a reference that does not resolve to an
on-disk file is not filtered out — `ldd` prints `libfoo.so => not found`,
which matches no recognized format, so `_linux_linked` raises instead. -/
theorem claim_C8_counterexample :
    linuxLinked [] ["\tlibfoo.so => not found"] =
      Except.error "unexpected ldd line:\n\nlibfoo.so => not found" := by
  decide

/-- C8 (amended): on Darwin every path in the returned list is a file on
disk (non-on-disk references are filtered out); on Linux there is no
on-disk check, and an unresolved reference aborts the inspector with an
error rather than being filtered. -/
theorem claim_C8_amended :
    (∀ isfile fn lines ret, darwinLinked isfile fn lines = Except.ok ret →
       ∀ p ∈ ret, isfile p = true) ∧
    (∀ ignored rest, linuxLinked ignored ("\tlibfoo.so => not found" :: rest) =
       Except.error "unexpected ldd line:\n\nlibfoo.so => not found") :=
  ⟨fun isfile fn lines ret h => (darwinLinked_facts isfile fn lines ret h).2.2,
   fun ignored rest => rfl⟩

/-- Witness for the amended C8 on the `otool` sample: both returned paths
satisfy the on-disk oracle. -/
theorem claim_C8_amended_witness :
    ∀ p ∈ ["/t/o/lib/libssl.1.1.dylib", "/t/o/lib/libcrypto.1.1.dylib"],
      osslIsfile p = true :=
  claim_C8_amended.1 osslIsfile "/t/l/_ssl.cpython-38-darwin.so" otoolSample
    ["/t/o/lib/libssl.1.1.dylib", "/t/o/lib/libcrypto.1.1.dylib"] (by decide)

/-- C9 (counterexample): for a Linux binary with two direct library
references, the relinker does not invoke the rewrite tool once per
reference: `_linux_relink` spawns exactly one `patchelf` invocation,
and 1 is neither 2 (one per reference) nor 3 (with a self-identity
rewrite). -/
theorem claim_C9_counterexample :
    (linuxRelinkCmds "/p/bin/python3.10" "/p/lib" true).length = 1 ∧
    (["/s/liba.so", "/s/libb.so"] : List String).length = 2 ∧
    (1 : Nat) ≠ 2 ∧ (1 : Nat) ≠ 3 := by
  decide

/-- C9 (amended): on Darwin the relinker invokes `install_name_tool
-change` exactly once per direct reference, `install_name_tool -id`
exactly once when `set_name` is set and never otherwise, and `codesign`
once; on Linux the relinker always spawns exactly one `patchelf`
invocation, independent of the number of references. -/
theorem claim_C9_amended (filename libdir : String) (sn : Bool)
    (linked : List String) :
    ((darwinRelinkCmds filename libdir sn linked).filter isChangeCmd).length =
      linked.length ∧
    ((darwinRelinkCmds filename libdir sn linked).filter isIdCmd).length =
      (if sn then 1 else 0) ∧
    ((darwinRelinkCmds filename libdir sn linked).filter isCodesignCmd).length = 1 ∧
    (linuxRelinkCmds filename libdir sn).length = 1 := by
  have hchange := filter_map_length
    (fun link => ["install_name_tool", "-change", link,
      "@loader_path/" ++ relpath (pathJoin libdir (basename link)) (dirname filename),
      filename]) isChangeCmd (fun a => by simp [isChangeCmd, startsWithLS]) linked
  have hid0 := filter_map_length_zero
    (fun link => ["install_name_tool", "-change", link,
      "@loader_path/" ++ relpath (pathJoin libdir (basename link)) (dirname filename),
      filename]) isIdCmd (fun a => by simp [isIdCmd, startsWithLS]) linked
  have hcs0 := filter_map_length_zero
    (fun link => ["install_name_tool", "-change", link,
      "@loader_path/" ++ relpath (pathJoin libdir (basename link)) (dirname filename),
      filename]) isCodesignCmd (fun a => by simp [isCodesignCmd, startsWithLS]) linked
  cases sn <;>
    simp [darwinRelinkCmds, linuxRelinkCmds, List.filter_append, List.filter_cons,
      isChangeCmd, isIdCmd, isCodesignCmd, startsWithLS, hchange, hid0, hcs0]

/-- C10: a file whose base name is already in the destination directory
when the walk starts is never mutated: its directory entry is unchanged
(neither overwritten nor shadowed), and no relink is performed on any
file of that base name — every relink besides the root's is of a freshly
copied library whose base name was absent initially. -/
theorem claim_C10 (env : LinkEnv) (root : String) (d₀ : List (String × String))
    (fuel : Nat) (st' : WalkState)
    (hrun : relink1 env fuel ⟨d₀, []⟩ root false = some st') :
    (∀ k, hasFile d₀ k = true → lookupFile st'.dir k = lookupFile d₀ k) ∧
    (∀ e ∈ st'.relinked, e = (root, false) ∨
        (e.2 = true ∧ hasFile d₀ (basename e.1) = false)) := by
  have hinv := relink1_inv env fuel _ root false st' hrun
  obtain ⟨ext, hext, hextp⟩ := hinv.dirExt
  obtain ⟨lg, hlg, hlgp⟩ := hinv.logExt
  constructor
  · intro k hk
    rw [hext]
    exact lookupFile_append_of_hasFile ext hk
  · intro e he
    rw [hlg] at he
    rcases List.mem_append.mp he with h0 | h1
    · simp at h0
    · rcases List.mem_cons.mp h1 with rfl | h2
      · exact Or.inl rfl
      · obtain ⟨h2t, hf, _⟩ := hlgp e h2
        exact Or.inr ⟨h2t, hf⟩

/-- Witness for C10: the pre-existing `libx.so` (content `OLD`) survives a
walk whose root references a different `/new/libx.so`. -/
theorem claim_C10_witness :
    lookupFile (⟨[("libx.so", "OLD")], [("/r/app", false)]⟩ : WalkState).dir
      "libx.so" = lookupFile [("libx.so", "OLD")] "libx.so" :=
  (claim_C10 c10Env "/r/app" [("libx.so", "OLD")] 1
    ⟨[("libx.so", "OLD")], [("/r/app", false)]⟩ (by decide)).1 "libx.so" (by decide)

end PrebuiltPythons
